import Mathlib

/-!
# search-string: a shallow embedding of `search-string.cpp`

The development follows the source file top to bottom:

* `ThreadPool` (lines 25-86): the pool is a state (`workers`, `tasks`, `stop`)
  and every critical section of the source is one atomic transition of it;
* `listFiles` (lines 88-103) and `readFile` (lines 105-137);
* `main` (lines 139-195): argument parsing, the usage exit and the scan.

`std::string` is embedded as `List Char`; the standard library functions the
source calls (`std::string::find`, `std::getline`, `path::filename`,
`operator<<` on an `int`) are given as small executable definitions.
The two `int` counters of the source (`lineNumber`, `matchCount`) only count
upwards from 0 or 1 by one; signed overflow is undefined in C++, so on every
execution with defined behaviour their arithmetic is that of the naturals and
they are embedded as `Nat`.
-/

namespace SearchString

/-- A `std::string`: a finite sequence of `char`. -/
abbrev Str := List Char

/-- A `std::filesystem::path`, kept as its string form. -/
abbrev Path := List Char

/-! ## Standard library functions used by the source -/

/-- Search of `std::string::find`: the first position at or after `i` (counted
from the start of the whole string, of which `s` is the part from `i` on) where
`target` occurs, or `none` for `std::string::npos`. -/
def findFrom (target : Str) : Str → Nat → Option Nat
  | [], i => if target.isPrefixOf [] then some i else none
  | c :: cs, i => if target.isPrefixOf (c :: cs) then some i else findFrom target cs (i + 1)

/-- The call `s.find(target)`. -/
def find (s target : Str) : Option Nat := findFrom target s 0

/-- One call of `std::getline(stream, line)` on the unread part of a stream:
`none` when nothing is left (the call fails and the loop ends), otherwise the
characters up to the next newline and the rest of the stream after that
newline (the newline itself is consumed and dropped). -/
def getline (stream : Str) : Option (Str × Str) :=
  match stream with
  | [] => none
  | _ :: _ => some (stream.takeWhile (fun c => c != '\n'), (stream.dropWhile (fun c => c != '\n')).drop 1)

/-- The call `filePath.filename().string()`: the component after the last `/`. -/
def filename (filePath : Path) : Str :=
  (filePath.reverse.takeWhile (fun c => c != '/')).reverse

/-- Text written by `oss << lineNumber`: the decimal digits. -/
def decimal (n : Nat) : Str := (Nat.repr n).toList

/-! ## The file system seen by the program -/

/-- What the program observes of the file system. `entries path` is the
sequence produced by `recursive_directory_iterator(path)`, each entry with the
answer of `is_regular_file`; `content path` is the byte content an `ifstream`
on `path` reads, `none` when the stream cannot be opened. -/
structure FileSystem where
  pathExists : Path → Bool
  entries : Path → List (Path × Bool)
  content : Path → Option Str

/-- Function `listFiles` (lines 88-103). -/
def listFiles (fs : FileSystem) (path : Path) : List Path :=
  if !fs.pathExists path then []
  else ((fs.entries path).filter (fun e => e.2)).map (fun e => e.1)

/-! ## `readFile` (lines 105-137) -/

/-- The locals of `readFile` that the loop updates. -/
structure ReadState where
  oss : Str
  lineNumber : Nat
  foundMatch : Bool
deriving DecidableEq

/-- Lines 123-127: the text logged for a matching line. -/
def logContent (line : Str) : Str :=
  if line.length > 32 then line.take 29 ++ "...".toList else line

/-- Lines 121-129: the text appended to `oss` for a matching line. -/
def logEntry (name : Str) (lineNumber : Nat) (line : Str) : Str :=
  name ++ ":".toList ++ decimal lineNumber ++ " ".toList ++ logContent line ++ ['\n']

/-- The body of the `while` loop (lines 119-132) for one line. -/
def readBody (name target : Str) (st : ReadState) (line : Str) : ReadState :=
  if find line target != none then
    { oss := st.oss ++ logEntry name st.lineNumber line
      lineNumber := st.lineNumber + 1
      foundMatch := true }
  else
    { st with lineNumber := st.lineNumber + 1 }

/-- The loop `while (std::getline(inputFile, line))` (lines 118-133), with
`fuel` bounding the number of iterations. -/
def readLoop (name target : Str) : Nat → Str → ReadState → ReadState
  | 0, _, st => st
  | fuel + 1, stream, st =>
    match getline stream with
    | none => st
    | some (line, rest) => readLoop name target fuel rest (readBody name target st line)

/-- Function `readFile`: the returned `bool` and the value of `log` after the
call, given its value before. Every successful `getline` consumes at least one
character, so `content.length` iterations exhaust the stream. -/
def readFile (fs : FileSystem) (filePath : Path) (target : Str) (log : Str) : Bool × Str :=
  match fs.content filePath with
  | none => (false, log)
  | some content =>
    let st := readLoop (filename filePath) target content.length content
      { oss := [], lineNumber := 1, foundMatch := false }
    (st.foundMatch, st.oss)

/-- The lines of a stream, in the order in which successive `getline` calls
return them. -/
def linesOf : Nat → Str → List Str
  | 0, _ => []
  | fuel + 1, stream =>
    match getline stream with
    | none => []
    | some (line, rest) => line :: linesOf fuel rest

/-- All lines of a file content. -/
def fileLines (content : Str) : List Str := linesOf content.length content

/-! ## `ThreadPool` (lines 25-86)

The pool is generic in the type `τ` of tasks. Every block of the source that
runs under `queue_mutex` is atomic, and so is one transition here. -/

/-- Where a worker thread stands in its loop (lines 30-43). -/
inductive Worker (τ : Type) where
  /-- At `condition.wait` (line 35), holding no task. -/
  | waiting : Worker τ
  /-- Inside `task()` (line 42). -/
  | running (task : τ) : Worker τ
  /-- Returned from the thread function (line 37). -/
  | terminated : Worker τ
deriving DecidableEq

/-- The members of `ThreadPool`, and two history lists that the source does not
store: the tasks accepted by `enqueue`, oldest first, and the tasks whose
execution has finished (whose future is resolved), in order of completion. -/
structure ThreadPool (τ : Type) where
  workers : List (Worker τ)
  tasks : List τ
  stop : Bool
  submitted : List τ
  executed : List τ
deriving DecidableEq

/-- What a worker finds in its critical section (lines 34-39). -/
inductive Dequeue (τ : Type) where
  /-- The wait predicate of line 35 is false: the worker stays blocked. -/
  | blocked : Dequeue τ
  /-- Line 37: the thread function returns. -/
  | exit : Dequeue τ
  /-- Lines 38-39: the head of the queue is taken, `rest` stays queued. -/
  | task (head : τ) (rest : List τ) : Dequeue τ
deriving DecidableEq

namespace ThreadPool

variable {τ : Type}

/-- Constructor `ThreadPool(threads)` (lines 27-46): `threads` workers, all
entering their loop, an empty queue, `stop` false. -/
def new (threads : Nat) : ThreadPool τ :=
  { workers := List.replicate threads Worker.waiting
    tasks := []
    stop := false
    submitted := []
    executed := [] }

/-- Method `enqueue` (lines 57-64): throws when `stop` is set, otherwise
pushes the task at the back of the queue. The pool after the call is returned
in both cases. -/
def enqueue (pool : ThreadPool τ) (task : τ) : Except String Unit × ThreadPool τ :=
  if pool.stop then
    (Except.error "enqueue on stopped ThreadPool", pool)
  else
    (Except.ok (), { pool with tasks := pool.tasks ++ [task], submitted := pool.submitted ++ [task] })

/-- The critical section of the worker loop (lines 34-39). -/
def dequeue (pool : ThreadPool τ) : Dequeue τ :=
  if !(pool.stop || !pool.tasks.isEmpty) then Dequeue.blocked
  else if pool.stop && pool.tasks.isEmpty then Dequeue.exit
  else
    match pool.tasks with
    | head :: rest => Dequeue.task head rest
    | [] => Dequeue.blocked -- not reached: the two tests above leave a non-empty queue

/-- The locked block of the destructor (lines 70-73). -/
def shutdown (pool : ThreadPool τ) : ThreadPool τ :=
  { pool with stop := true }

/-- The `join` loop of the destructor (lines 75-76) has finished: every worker
thread has returned. -/
def joined (pool : ThreadPool τ) : Bool :=
  pool.workers.all (fun w => match w with | Worker.terminated => true | _ => false)

/-- Some worker thread is inside a task. -/
def busy (pool : ThreadPool τ) : Bool :=
  pool.workers.any (fun w => match w with | Worker.running _ => true | _ => false)

end ThreadPool

/-- The atomic steps of a pool: a call of `enqueue`, worker number `worker`
passing its critical section, worker number `worker` returning from `task()`,
and the locked block of the destructor. -/
inductive Event (τ : Type) where
  | enqueue (task : τ) : Event τ
  | wake (worker : Nat) : Event τ
  | finish (worker : Nat) : Event τ
  | shutdown : Event τ
deriving DecidableEq

namespace ThreadPool

variable {τ : Type}

/-- One step of the pool; `none` when the step cannot happen in this state (a
worker that is not at that point of its loop, a blocked wait, an `enqueue`
that throws). -/
def step (pool : ThreadPool τ) : Event τ → Option (ThreadPool τ)
  | Event.enqueue task =>
    match pool.enqueue task with
    | (Except.ok _, pool') => some pool'
    | (Except.error _, _) => none
  | Event.wake k =>
    match pool.workers[k]? with
    | some Worker.waiting =>
      match pool.dequeue with
      | Dequeue.blocked => none
      | Dequeue.exit => some { pool with workers := pool.workers.set k Worker.terminated }
      | Dequeue.task head rest =>
        some { pool with tasks := rest, workers := pool.workers.set k (Worker.running head) }
    | _ => none
  | Event.finish k =>
    match pool.workers[k]? with
    | some (Worker.running task) =>
      some { pool with workers := pool.workers.set k Worker.waiting, executed := pool.executed ++ [task] }
    | _ => none
  | Event.shutdown => some pool.shutdown

/-- A sequence of steps. -/
def run (pool : ThreadPool τ) : List (Event τ) → Option (ThreadPool τ)
  | [] => some pool
  | e :: es =>
    match pool.step e with
    | none => none
    | some pool' => run pool' es

end ThreadPool

/-! ## `main` (lines 139-195) -/

/-- The two strings filled by the argument loop. -/
structure Args where
  path : Str
  search : Str
deriving DecidableEq

/-- The argument loop (lines 145-155) over `args[i], args[i+1], ...`; the test
`i + 1 < argc` holds exactly when a next argument exists. -/
def parseArgs : List Str → Args → Args
  | [], a => a
  | [_], a => a
  | arg :: next :: rest, a =>
    if arg = "-p".toList then parseArgs rest { a with path := next }
    else if arg = "-s".toList then parseArgs rest { a with search := next }
    else parseArgs (next :: rest) a

/-- Constant `RED_COLOR` (line 23). -/
def RED_COLOR : Str := "\x1b[0;31m".toList

/-- Constant `RESET_COLOR` (line 22). -/
def RESET_COLOR : Str := "\x1b[0m".toList

/-- The text printed at line 158. -/
def usageMessage : Str :=
  "[".toList ++ RED_COLOR ++ "-".toList ++ RESET_COLOR ++
    "] Invalid Usage: search-string [-p] path/to/dir -s string_to_search_for\n".toList

/-- The memory the tasks of one scan act on: the string `log` of `main`, passed
to every task by reference, and the state of each future of the vector
`futures` (`none` while not ready). -/
structure ScanMemory where
  log : Str
  futures : List (Option Bool)
deriving DecidableEq

/-- Execution of task number `i`, the call `readFile(files[i], search, log)`
bound at line 173: it assigns `log` and makes future number `i` ready. The
source does not synchronise the assignments of `log` made by different tasks;
here each task makes its assignment in one piece, at the moment it finishes. -/
def runTask (fs : FileSystem) (files : List Path) (search : Str) (mem : ScanMemory) (i : Nat) :
    ScanMemory :=
  match files[i]? with
  | none => mem
  | some file =>
    let r := readFile fs file search mem.log
    { log := r.2, futures := mem.futures.set i (some r.1) }

/-- The loop of lines 176-178 over the ready futures. -/
def countMatches (futures : List (Option Bool)) : Nat :=
  futures.foldl (fun matchCount f => if f = some true then matchCount + 1 else matchCount) 0

/-- Lines 170-186 of `main`: the pool is built with `threads` workers, task
number `i` is enqueued for `files[i]`, every future is awaited, then `log` is
written out. `trace` is the interleaving of the pool steps of the run. The
result is the pair of `matchCount` and the text written to `logs.txt`; it is
`none` when `trace` is not a complete run of these lines: the calls of
`enqueue` must be those of the loop at lines 172-174, every task must have
finished (the `get` of line 177 returns only then), and the pool is not yet
destroyed. -/
def scan (fs : FileSystem) (threads : Nat) (files : List Path) (search : Str)
    (trace : List (Event Nat)) : Option (Nat × Str) :=
  match (ThreadPool.new threads).run trace with
  | none => none
  | some pool =>
    if pool.submitted = List.range files.length ∧ pool.tasks = [] ∧ pool.busy = false
        ∧ pool.stop = false then
      let mem := pool.executed.foldl (runTask fs files search)
        { log := [], futures := List.replicate files.length none }
      some (countMatches mem.futures, mem.log)
    else none

/-- What a run of `main` leaves behind: the exit status, whether the usage
message was printed, and for a scan the root path, the search string, the
number of files, `matchCount` and the content of `logs.txt`. -/
structure MainResult where
  exitCode : Int
  usage : Option Str
  scanned : Option (Path × Str × Nat × Nat × Str)
deriving DecidableEq

/-- Function `main`. `argv` holds `args[0], ..., args[argc-1]`, `cwd` is the
value of `current_path()`, `threads` the value of
`thread::hardware_concurrency()`, `trace` the interleaving of the pool steps.
The result is `none` when `trace` is not a complete run (see `scan`). -/
def main (fs : FileSystem) (cwd : Path) (threads : Nat) (argv : List Str)
    (trace : List (Event Nat)) : Option MainResult :=
  let a := parseArgs (argv.drop 1) { path := [], search := [] }
  if a.search = [] then
    some { exitCode := 0, usage := some usageMessage, scanned := none }
  else
    let path := if a.path = [] then cwd else a.path
    let files := listFiles fs path
    match scan fs threads files a.search trace with
    | none => none
    | some (matchCount, log) =>
      some { exitCode := 0, usage := none,
             scanned := some (path, a.search, files.length, matchCount, log) }

/-! ## Notions used to state the properties -/

/-- The lines of a file that contain `target`, each paired with its 1-based
position among all lines of the file, in file order. -/
def matchingLines (target content : Str) : List (Nat × Str) :=
  ((fileLines content).enumFrom 1).filter (fun p => decide (target <:+: p.2))

/-- The run in which `main` first enqueues every task and worker 0 then
executes them one after the other. -/
def sequentialTrace (n : Nat) : List (Event Nat) :=
  (List.range n).map Event.enqueue ++
    (List.range n).flatMap (fun _ => [Event.wake 0, Event.finish 0])

namespace ThreadPool

variable {τ : Type}

/-- The tasks that worker threads are executing at this moment. -/
def inFlight (pool : ThreadPool τ) : List τ :=
  pool.workers.filterMap (fun w => match w with | Worker.running task => some task | _ => none)

/-- The invariant of the pool: a worker has returned only if `stop` is set and
the queue is empty, and every accepted task is finished, being executed or
still queued. -/
def Inv (pool : ThreadPool τ) : Prop :=
  ((∃ w ∈ pool.workers, w = Worker.terminated) → pool.stop = true ∧ pool.tasks = [])
    ∧ pool.submitted.Perm (pool.executed ++ pool.inFlight ++ pool.tasks)

end ThreadPool

/-! ## A small directory tree used in the examples -/

/-- The tree `/d` with three regular files and one directory:
`/d/a.txt` has the word `needle` on its first and third line,
`/d/sub/b.txt` is the single word without a final newline, and
`/d/long.txt` has one line of forty characters. -/
def fsDemo : FileSystem where
  pathExists := fun p => decide (p = "/d".toList)
  entries := fun p =>
    if p = "/d".toList then
      [("/d/a.txt".toList, true), ("/d/sub".toList, false), ("/d/sub/b.txt".toList, true),
        ("/d/long.txt".toList, true)]
    else []
  content := fun p =>
    if p = "/d/a.txt".toList then some "x needle\nfoo\nneedle y\n".toList
    else if p = "/d/sub/b.txt".toList then some "needle".toList
    else if p = "/d/long.txt".toList then some "0123456789012345678901234567 needle tail\n".toList
    else none

/-- The command line `search-string -p /d -s needle`. -/
def argvDemo : List Str :=
  ["search-string".toList, "-p".toList, "/d".toList, "-s".toList, "needle".toList]

theorem findFrom_isSome (target s : Str) (i : Nat) :
    (findFrom target s i).isSome = true ↔ target <:+: s := by
  induction s generalizing i with
  | nil =>
    unfold findFrom
    split
    · rename_i h
      simp only [Option.isSome_some, true_iff]
      exact (List.isPrefixOf_iff_prefix.mp h).isInfix
    · rename_i h
      simp only [Option.isSome_none]
      constructor
      · intro hf; exact absurd hf (by decide)
      · intro hin
        exact absurd (List.isPrefixOf_iff_prefix.mpr (List.infix_nil.mp hin ▸ List.prefix_refl _)) h
  | cons c cs ih =>
    unfold findFrom
    split
    · rename_i h
      simp only [Option.isSome_some, true_iff]
      exact (List.isPrefixOf_iff_prefix.mp h).isInfix
    · rename_i h
      rw [ih, List.infix_cons_iff]
      constructor
      · intro hin; exact Or.inr hin
      · rintro (hp | hin)
        · exact absurd (List.isPrefixOf_iff_prefix.mpr hp) h
        · exact hin

theorem find_ne_none (line target : Str) :
    (find line target != none) = decide (target <:+: line) := by
  have h := findFrom_isSome target line 0
  unfold find
  cases hf : findFrom target line 0 with
  | none =>
    rw [hf] at h
    simp at h
    simp [h]
  | some v =>
    rw [hf] at h
    simp at h
    simp [h]

/-! ## Lemmas on the loop of `readFile` -/

theorem readBody_eq (name target : Str) (st : ReadState) (line : Str) :
    readBody name target st line =
      if target <:+: line then
        { oss := st.oss ++ logEntry name st.lineNumber line
          lineNumber := st.lineNumber + 1
          foundMatch := true }
      else { st with lineNumber := st.lineNumber + 1 } := by
  unfold readBody
  rw [find_ne_none]
  by_cases h : target <:+: line <;> simp [h]

theorem readLoop_eq_foldl (name target : Str) (fuel : Nat) (stream : Str) (st : ReadState) :
    readLoop name target fuel stream st = (linesOf fuel stream).foldl (readBody name target) st := by
  induction fuel generalizing stream st with
  | zero => rfl
  | succ fuel ih =>
    unfold readLoop linesOf
    cases hg : getline stream with
    | none => rfl
    | some p =>
      obtain ⟨line, rest⟩ := p
      simp only [List.foldl_cons]
      exact ih rest _

theorem foldl_readBody (name target : Str) (ls : List Str) (st : ReadState) :
    (ls.foldl (readBody name target) st).oss =
        st.oss ++ ((ls.enumFrom st.lineNumber).filter (fun p => decide (target <:+: p.2))).flatMap
          (fun p => logEntry name p.1 p.2)
      ∧ (ls.foldl (readBody name target) st).lineNumber = st.lineNumber + ls.length
      ∧ (ls.foldl (readBody name target) st).foundMatch =
        (st.foundMatch || ls.any (fun l => decide (target <:+: l))) := by
  induction ls generalizing st with
  | nil => simp
  | cons l ls ih =>
    simp only [List.foldl_cons, List.enumFrom_cons, List.length_cons, List.any_cons]
    obtain ⟨h1, h2, h3⟩ := ih (readBody name target st l)
    rw [h1, h2, h3, readBody_eq]
    by_cases hm : target <:+: l
    · simp [hm, List.filter_cons, List.append_assoc]
      omega
    · simp [hm, List.filter_cons]
      omega

theorem readFile_eq (fs : FileSystem) (filePath : Path) (target log content : Str)
    (h : fs.content filePath = some content) :
    readFile fs filePath target log =
      ((fileLines content).any (fun l => decide (target <:+: l)),
        (matchingLines target content).flatMap (fun p => logEntry (filename filePath) p.1 p.2)) := by
  unfold readFile
  rw [h]
  simp only
  rw [readLoop_eq_foldl]
  obtain ⟨h1, _, h3⟩ := foldl_readBody (filename filePath) target (linesOf content.length content)
    { oss := [], lineNumber := 1, foundMatch := false }
  rw [h1, h3]
  simp [matchingLines, fileLines]

theorem getline_cons (c : Char) (cs : Str) :
    getline (c :: cs) = some ((c :: cs).takeWhile (fun x => x != '\n'),
      ((c :: cs).dropWhile (fun x => x != '\n')).drop 1) := rfl

/-- A successful `getline` splits the stream: the line holds no newline, and
the stream is the line alone or the line, a newline and the rest. -/
theorem getline_some {stream line rest : Str} (h : getline stream = some (line, rest)) :
    '\n' ∉ line ∧ rest.length < stream.length ∧
      ((stream = line ∧ rest = []) ∨ stream = line ++ '\n' :: rest) := by
  cases stream with
  | nil => simp [getline] at h
  | cons c cs =>
    rw [getline_cons] at h
    simp only [Option.some.injEq, Prod.mk.injEq] at h
    obtain ⟨hl, hr⟩ := h
    have hsplit := List.takeWhile_append_dropWhile (fun x => x != '\n') (c :: cs)
    have hnl : '\n' ∉ line := by
      intro hmem
      rw [← hl] at hmem
      have := List.mem_takeWhile_imp hmem
      simp at this
    refine ⟨hnl, ?_, ?_⟩
    · rw [← hr, List.length_drop]
      have := congrArg List.length hsplit
      simp only [List.length_append, List.length_cons] at this ⊢
      omega
    · cases hd : (c :: cs).dropWhile (fun x => x != '\n') with
      | nil =>
        left
        rw [hd] at hsplit hr
        rw [hl, List.append_nil] at hsplit
        exact ⟨hsplit.symm, by simpa using hr.symm⟩
      | cons y ys =>
        right
        have hy : y = '\n' := by
          have := List.head_dropWhile_not (fun x => x != '\n') (c :: cs) (by rw [hd]; simp)
          simp only [hd, List.head_cons] at this
          simpa using this
        rw [hd] at hsplit hr
        rw [hl] at hsplit
        simp only [List.drop_succ_cons, List.drop_zero] at hr
        rw [← hsplit, hy, hr]

namespace ThreadPool

variable {τ : Type}

theorem split_at {α : Type} {l : List α} {k : Nat} {a : α} (h : l[k]? = some a) (b : α) :
    ∃ pre post, l = pre ++ a :: post ∧ l.set k b = pre ++ b :: post := by
  obtain ⟨hk, ha⟩ := List.getElem?_eq_some.mp h
  refine ⟨l.take k, l.drop (k + 1), ?_, ?_⟩
  · rw [← ha, ← List.drop_eq_getElem_cons hk, List.take_append_drop]
  · rw [List.set_eq_take_append_cons_drop, if_pos hk]

theorem dequeue_exit_iff (pool : ThreadPool τ) :
    pool.dequeue = Dequeue.exit ↔ pool.stop = true ∧ pool.tasks = [] := by
  unfold dequeue
  cases hs : pool.stop <;> cases ht : pool.tasks <;> simp

theorem dequeue_task_iff (pool : ThreadPool τ) (head : τ) (rest : List τ) :
    pool.dequeue = Dequeue.task head rest ↔ pool.tasks = head :: rest := by
  unfold dequeue
  cases hs : pool.stop <;> cases ht : pool.tasks <;> simp

theorem dequeue_blocked_iff (pool : ThreadPool τ) :
    pool.dequeue = Dequeue.blocked ↔ pool.stop = false ∧ pool.tasks = [] := by
  unfold dequeue
  cases hs : pool.stop <;> cases ht : pool.tasks <;> simp

theorem inv_new (threads : Nat) : Inv (new threads : ThreadPool τ) := by
  constructor
  · rintro ⟨w, hw, rfl⟩
    simp [new, List.mem_replicate] at hw
  · simp [new, inFlight, List.filterMap_replicate_of_none]

theorem step_inv {pool pool' : ThreadPool τ} {e : Event τ} (hinv : Inv pool)
    (hstep : pool.step e = some pool') : Inv pool' := by
  obtain ⟨hdrain, hperm⟩ := hinv
  cases e with
  | enqueue task =>
    simp only [step, enqueue] at hstep
    cases hs : pool.stop with
    | true => simp [hs] at hstep
    | false =>
      simp only [hs, Bool.false_eq_true, if_false, Option.some.injEq] at hstep
      subst hstep
      constructor
      · intro hex
        have := (hdrain hex).1
        rw [hs] at this
        exact absurd this (by decide)
      · simp only [inFlight]
        rw [← List.append_assoc]
        exact hperm.append_right [task]
  | wake k =>
    simp only [step] at hstep
    cases hw : pool.workers[k]? with
    | none => simp [hw] at hstep
    | some w =>
      cases w with
      | running t => simp [hw] at hstep
      | terminated => simp [hw] at hstep
      | waiting =>
        simp only [hw] at hstep
        cases hd : pool.dequeue with
        | blocked => simp [hd] at hstep
        | exit =>
          simp only [hd, Option.some.injEq] at hstep
          subst hstep
          obtain ⟨pre, post, hl, hset⟩ := split_at hw Worker.terminated
          constructor
          · intro _
            exact (dequeue_exit_iff pool).mp hd
          · simp only [inFlight, hset]
            simp only [inFlight, hl] at hperm
            simpa [List.filterMap_append, List.filterMap_cons] using hperm
        | task head rest =>
          simp only [hd, Option.some.injEq] at hstep
          subst hstep
          have ht := (dequeue_task_iff pool head rest).mp hd
          obtain ⟨pre, post, hl, hset⟩ := split_at hw (Worker.running head)
          constructor
          · rintro ⟨w, hwm, rfl⟩
            simp only at hwm
            rcases List.mem_or_eq_of_mem_set hwm with hm | hm
            · have := (hdrain ⟨_, hm, rfl⟩).2
              rw [ht] at this
              exact absurd this (by simp)
            · exact absurd hm (by simp)
          · simp only [inFlight, hset]
            simp only [inFlight, hl, ht] at hperm
            simp only [List.filterMap_append, List.filterMap_cons] at hperm ⊢
            refine hperm.trans ?_
            simp only [List.append_assoc]
            refine List.Perm.append_left _ (List.Perm.append_left _ ?_)
            simp only [List.cons_append]
            exact List.perm_middle
  | finish k =>
    simp only [step] at hstep
    cases hw : pool.workers[k]? with
    | none => simp [hw] at hstep
    | some w =>
      cases w with
      | waiting => simp [hw] at hstep
      | terminated => simp [hw] at hstep
      | running t =>
        simp only [hw, Option.some.injEq] at hstep
        subst hstep
        obtain ⟨pre, post, hl, hset⟩ := split_at hw Worker.waiting
        constructor
        · rintro ⟨w, hwm, rfl⟩
          simp only at hwm
          rcases List.mem_or_eq_of_mem_set hwm with hm | hm
          · exact hdrain ⟨_, hm, rfl⟩
          · exact absurd hm (by simp)
        · simp only [inFlight, hset]
          simp only [inFlight, hl] at hperm
          simp only [List.filterMap_append, List.filterMap_cons] at hperm ⊢
          refine hperm.trans ?_
          simp only [List.append_assoc]
          refine List.Perm.append_left _ ?_
          simp only [List.singleton_append, List.cons_append]
          exact List.perm_middle
  | shutdown =>
    simp only [step, shutdown, Option.some.injEq] at hstep
    subst hstep
    constructor
    · intro hex
      exact ⟨rfl, (hdrain hex).2⟩
    · exact hperm

theorem run_inv {pool pool' : ThreadPool τ} (trace : List (Event τ)) (hinv : Inv pool)
    (hrun : pool.run trace = some pool') : Inv pool' := by
  induction trace generalizing pool with
  | nil =>
    simp only [run, Option.some.injEq] at hrun
    exact hrun ▸ hinv
  | cons e es ih =>
    simp only [run] at hrun
    cases hs : pool.step e with
    | none => simp [hs] at hrun
    | some p =>
      simp only [hs] at hrun
      exact ih (step_inv hinv hs) hrun

theorem step_workers_length {pool pool' : ThreadPool τ} {e : Event τ}
    (hstep : pool.step e = some pool') : pool'.workers.length = pool.workers.length := by
  cases e with
  | enqueue task =>
    simp only [step, enqueue] at hstep
    cases hs : pool.stop with
    | true => simp [hs] at hstep
    | false =>
      simp only [hs, Bool.false_eq_true, if_false, Option.some.injEq] at hstep
      subst hstep; rfl
  | wake k =>
    simp only [step] at hstep
    split at hstep
    · split at hstep
      · simp at hstep
      · simp only [Option.some.injEq] at hstep
        subst hstep; simp
      · simp only [Option.some.injEq] at hstep
        subst hstep; simp
    · simp at hstep
  | finish k =>
    simp only [step] at hstep
    split at hstep
    · simp only [Option.some.injEq] at hstep
      subst hstep; simp
    · simp at hstep
  | shutdown =>
    simp only [step, shutdown, Option.some.injEq] at hstep
    subst hstep; rfl

theorem run_workers_length {pool pool' : ThreadPool τ} (trace : List (Event τ))
    (hrun : pool.run trace = some pool') : pool'.workers.length = pool.workers.length := by
  induction trace generalizing pool with
  | nil =>
    simp only [run, Option.some.injEq] at hrun
    rw [hrun]
  | cons e es ih =>
    simp only [run] at hrun
    cases hs : pool.step e with
    | none => simp [hs] at hrun
    | some p =>
      simp only [hs] at hrun
      rw [ih hrun, step_workers_length hs]

end ThreadPool

/-! ## Lemmas on the scan of `main` -/

theorem inFlight_of_not_busy {τ : Type} (pool : ThreadPool τ) (h : pool.busy = false) :
    pool.inFlight = [] := by
  unfold ThreadPool.inFlight
  rw [List.filterMap_eq_nil_iff]
  intro w hw
  cases w with
  | waiting => rfl
  | terminated => rfl
  | running t =>
    have : pool.busy = true := by
      unfold ThreadPool.busy
      rw [List.any_eq_true]
      exact ⟨_, hw, rfl⟩
    rw [h] at this
    exact absurd this (by decide)

namespace ThreadPool

variable {τ : Type}

end ThreadPool

theorem toDigitsCore_no_newline (fuel n : Nat) (acc : List Char) (hacc : '\n' ∉ acc) :
    '\n' ∉ Nat.toDigitsCore 10 fuel n acc := by
  induction fuel generalizing n acc with
  | zero => simpa [Nat.toDigitsCore] using hacc
  | succ fuel ih =>
    have hd : ∀ d < 10, Nat.digitChar d ≠ '\n' := by decide
    have hcons : '\n' ∉ Nat.digitChar (n % 10) :: acc := by
      simp only [List.mem_cons, not_or]
      exact ⟨fun e => hd (n % 10) (Nat.mod_lt _ (by decide)) e.symm, hacc⟩
    unfold Nat.toDigitsCore
    simp only
    split
    · exact hcons
    · exact ih _ _ hcons

theorem decimal_no_newline (n : Nat) : '\n' ∉ decimal n := by
  unfold decimal Nat.repr Nat.toDigits
  exact toDigitsCore_no_newline _ _ _ (by simp)

theorem linesOf_no_newline (fuel : Nat) (stream : Str) :
    ∀ line ∈ linesOf fuel stream, '\n' ∉ line := by
  induction fuel generalizing stream with
  | zero => simp [linesOf]
  | succ fuel ih =>
    unfold linesOf
    cases hg : getline stream with
    | none => simp
    | some p =>
      obtain ⟨l, rest⟩ := p
      intro line hm
      simp only [List.mem_cons] at hm
      rcases hm with rfl | hm
      · exact (getline_some hg).1
      · exact ih rest line hm

theorem logContent_no_newline (line : Str) (h : '\n' ∉ line) : '\n' ∉ logContent line := by
  unfold logContent
  split
  · intro hm
    rcases List.mem_append.mp hm with h1 | h1
    · exact h (List.mem_of_mem_take h1)
    · exact absurd h1 (by decide)
  · exact h

theorem count_newline_logEntry (name : Str) (n : Nat) (line : Str)
    (hname : '\n' ∉ name) (hline : '\n' ∉ line) :
    (logEntry name n line).count '\n' = 1 := by
  unfold logEntry
  simp only [List.count_append]
  rw [List.count_eq_zero_of_not_mem hname, List.count_eq_zero_of_not_mem (decimal_no_newline n),
    List.count_eq_zero_of_not_mem (logContent_no_newline line hline)]
  rfl

theorem count_newline_entries (name : Str) (ps : List (Nat × Str)) (hname : '\n' ∉ name)
    (hps : ∀ p ∈ ps, '\n' ∉ p.2) :
    (ps.flatMap (fun p => logEntry name p.1 p.2)).count '\n' = ps.length := by
  induction ps with
  | nil => rfl
  | cons p ps ih =>
    rw [List.flatMap_cons, List.count_append,
      count_newline_logEntry name p.1 p.2 hname (hps p (List.mem_cons_self _ _)),
      ih (fun q hq => hps q (List.mem_cons_of_mem _ hq))]
    simp only [List.length_cons]
    omega

theorem matchingLines_mem_iff (target content : Str) (n : Nat) (line : Str) :
    (n, line) ∈ matchingLines target content ↔
      1 ≤ n ∧ (fileLines content)[n - 1]? = some line ∧ target <:+: line := by
  unfold matchingLines
  rw [List.mem_filter, List.mk_mem_enumFrom_iff_le_and_getElem?_sub]
  simp [and_assoc]

theorem matchingLines_no_newline (target content : Str) :
    ∀ p ∈ matchingLines target content, '\n' ∉ p.2 := by
  rintro ⟨n, line⟩ hp
  obtain ⟨_, hget, _⟩ := (matchingLines_mem_iff target content n line).mp hp
  obtain ⟨hlt, heq⟩ := List.getElem?_eq_some.mp hget
  exact linesOf_no_newline _ _ line (heq ▸ List.getElem_mem hlt)

theorem linesOf_nil (fuel : Nat) : linesOf fuel [] = [] := by
  cases fuel <;> rfl

theorem linesOf_fuel_irrelevant (fuel fuel' : Nat) (stream : Str) (h : stream.length ≤ fuel)
    (h' : stream.length ≤ fuel') : linesOf fuel stream = linesOf fuel' stream := by
  induction fuel generalizing fuel' stream with
  | zero =>
    have hs : stream = [] := List.length_eq_zero.mp (Nat.le_zero.mp h)
    subst hs
    rw [linesOf_nil, linesOf_nil]
  | succ fuel ih =>
    cases stream with
    | nil => rw [linesOf_nil, linesOf_nil]
    | cons c cs =>
      cases fuel' with
      | zero => simp at h'
      | succ fuel' =>
        simp only [linesOf, getline_cons]
        have hlen := (getline_some (getline_cons c cs)).2.1
        simp only [List.length_cons] at hlen h h'
        rw [ih fuel' _ (by omega) (by omega)]

/-- More fuel than the length of the stream does not change the lines read:
the loop has stopped because the stream was exhausted. -/
theorem linesOf_fuel (fuel : Nat) (stream : Str) (h : stream.length ≤ fuel) :
    linesOf fuel stream = linesOf stream.length stream :=
  linesOf_fuel_irrelevant fuel stream.length stream h (Nat.le_refl _)

theorem readLoop_fuel (name target : Str) (fuel : Nat) (stream : Str) (st : ReadState)
    (h : stream.length ≤ fuel) :
    readLoop name target fuel stream st = readLoop name target stream.length stream st := by
  rw [readLoop_eq_foldl, readLoop_eq_foldl, linesOf_fuel fuel stream h]

theorem length_filter_enumFrom (p : Str → Bool) (n : Nat) (l : List Str) :
    ((l.enumFrom n).filter (fun q => p q.2)).length = (l.filter p).length := by
  induction l generalizing n with
  | nil => rfl
  | cons x xs ih =>
    simp only [List.enumFrom_cons, List.filter_cons]
    cases hp : p x
    · simpa using ih (n + 1)
    · simpa using ih (n + 1)

/-! ## The claims about `readFile` -/

/-- Claim C3. Truncation law of `readFile`: the log of an openable file is made
of one record per matching line, and the content logged for a line of at most
32 characters is the line itself, for a longer line its first 29 characters
followed by `...`; the logged content never exceeds 32 characters. -/
theorem readFile_truncation (fs : FileSystem) (filePath : Path) (target log content : Str)
    (h : fs.content filePath = some content) :
    (readFile fs filePath target log).2 =
        (matchingLines target content).flatMap (fun p =>
          filename filePath ++ ":".toList ++ decimal p.1 ++ " ".toList ++
            (if p.2.length ≤ 32 then p.2 else p.2.take 29 ++ "...".toList) ++ "\n".toList)
      ∧ ∀ line : Str,
          (if line.length ≤ 32 then line else line.take 29 ++ "...".toList).length ≤ 32 := by
  constructor
  · rw [readFile_eq fs filePath target log content h]
    simp only
    congr 1
    funext p
    simp only [logEntry, logContent]
    by_cases hl : p.2.length ≤ 32
    · rw [if_pos hl, if_neg (by omega)]
      rfl
    · rw [if_neg hl, if_pos (by omega)]
      rfl
  · intro line
    by_cases hl : line.length ≤ 32
    · rw [if_pos hl]; exact hl
    · rw [if_neg hl]
      simp only [List.length_append, List.length_take]
      have : "...".toList.length = 3 := rfl
      omega

/-- Claim C3, on `/d/long.txt`: the line of forty characters is logged as its
first 29 characters and the marker. -/
theorem readFile_truncation_witness :
    fsDemo.content "/d/long.txt".toList
        = some "0123456789012345678901234567 needle tail\n".toList
      ∧ (readFile fsDemo "/d/long.txt".toList "needle".toList []).2 =
        (matchingLines "needle".toList
            "0123456789012345678901234567 needle tail\n".toList).flatMap (fun p =>
          filename "/d/long.txt".toList ++ ":".toList ++ decimal p.1 ++ " ".toList ++
            (if p.2.length ≤ 32 then p.2 else p.2.take 29 ++ "...".toList) ++ "\n".toList)
      ∧ (readFile fsDemo "/d/long.txt".toList "needle".toList []).2 =
        "long.txt:1 0123456789012345678901234567 ...\n".toList :=
  ⟨by decide,
    (readFile_truncation fsDemo "/d/long.txt".toList "needle".toList []
      "0123456789012345678901234567 needle tail\n".toList (by decide)).1,
    by decide⟩

/-- Claim C4. For an openable file, `readFile` returns true exactly when some
line contains the target; its log is one newline-terminated record per line
containing the target, so it has as many records as there are such lines; a
file with the target on exactly two lines gives true and two records. -/
theorem readFile_result_and_count (fs : FileSystem) (filePath : Path) (target log content : Str)
    (h : fs.content filePath = some content) :
    ((readFile fs filePath target log).1 = true ↔ ∃ line ∈ fileLines content, target <:+: line)
      ∧ (readFile fs filePath target log).2 =
        ((matchingLines target content).map
          (fun p => logEntry (filename filePath) p.1 p.2)).flatten
      ∧ ((matchingLines target content).map
          (fun p => logEntry (filename filePath) p.1 p.2)).length =
        (fileLines content).countP (fun line => decide (target <:+: line))
      ∧ (∀ n line, (logEntry (filename filePath) n line).getLast? = some '\n')
      ∧ ('\n' ∉ filename filePath →
          (readFile fs filePath target log).2.count '\n' =
            (fileLines content).countP (fun line => decide (target <:+: line)))
      ∧ ((fileLines content).countP (fun line => decide (target <:+: line)) = 2 →
          (readFile fs filePath target log).1 = true
            ∧ ((matchingLines target content).map
                (fun p => logEntry (filename filePath) p.1 p.2)).length = 2) := by
  have hlen : ((matchingLines target content).map
      (fun p => logEntry (filename filePath) p.1 p.2)).length =
        (fileLines content).countP (fun line => decide (target <:+: line)) := by
    rw [List.length_map, matchingLines, List.countP_eq_length_filter]
    exact length_filter_enumFrom (fun line => decide (target <:+: line)) 1 (fileLines content)
  have hres : ((readFile fs filePath target log).1 = true ↔
      ∃ line ∈ fileLines content, target <:+: line) := by
    rw [readFile_eq fs filePath target log content h]
    simp [List.any_eq_true]
  refine ⟨hres, ?_, hlen, ?_, ?_, ?_⟩
  · rw [readFile_eq fs filePath target log content h]
    simp [List.flatMap]
  · intro n line
    unfold logEntry
    rw [List.getLast?_append]
    rfl
  · intro hname
    rw [readFile_eq fs filePath target log content h]
    simp only
    rw [count_newline_entries _ _ hname (matchingLines_no_newline target content), ← hlen,
      List.length_map]
  · intro h2
    refine ⟨?_, hlen.trans h2⟩
    rw [hres]
    have hpos : 0 < (fileLines content).countP (fun line => decide (target <:+: line)) := by
      omega
    obtain ⟨line, hm, hp⟩ := List.countP_pos_iff.mp hpos
    exact ⟨line, hm, by simpa using hp⟩

/-- Claim C4, on `/d/a.txt`, which has the target on lines 1 and 3 only: the
result is true and the log holds two records. -/
theorem readFile_result_and_count_witness :
    fsDemo.content "/d/a.txt".toList = some "x needle\nfoo\nneedle y\n".toList
      ∧ (fileLines "x needle\nfoo\nneedle y\n".toList).countP
          (fun line => decide ("needle".toList <:+: line)) = 2
      ∧ (readFile fsDemo "/d/a.txt".toList "needle".toList []).1 = true
      ∧ ((matchingLines "needle".toList "x needle\nfoo\nneedle y\n".toList).map
          (fun p => logEntry (filename "/d/a.txt".toList) p.1 p.2)).length = 2
      ∧ (readFile fsDemo "/d/a.txt".toList "needle".toList []).2.count '\n' = 2 :=
  ⟨by decide, by decide,
    ((readFile_result_and_count fsDemo "/d/a.txt".toList "needle".toList []
      "x needle\nfoo\nneedle y\n".toList (by decide)).2.2.2.2.2 (by decide)).1,
    ((readFile_result_and_count fsDemo "/d/a.txt".toList "needle".toList []
      "x needle\nfoo\nneedle y\n".toList (by decide)).2.2.2.2.2 (by decide)).2,
    by decide⟩

/-- Claim C6. `enqueue` throws exactly when the stop flag is already set, and
then leaves the pool, its queue included, unchanged; when the flag is not set
it returns normally and the queue is the old queue with the one new task at
its tail, the workers and the flag being untouched. -/
theorem enqueue_contract {τ : Type} (pool : ThreadPool τ) (task : τ) :
    ((∃ msg, (pool.enqueue task).1 = Except.error msg) ↔ pool.stop = true)
      ∧ (pool.stop = true → (pool.enqueue task).2 = pool)
      ∧ (pool.stop = false →
          (pool.enqueue task).1 = Except.ok ()
            ∧ (pool.enqueue task).2.tasks = pool.tasks ++ [task]
            ∧ (pool.enqueue task).2.workers = pool.workers
            ∧ (pool.enqueue task).2.stop = false) := by
  unfold ThreadPool.enqueue
  cases hs : pool.stop <;> simp [hs]

/-- Claim C6, on a stopped pool and on a running pool with one queued task. -/
theorem enqueue_contract_witness :
    (ThreadPool.enqueue ⟨[Worker.waiting], [1], true, [1], []⟩ 2).2
        = (⟨[Worker.waiting], [1], true, [1], []⟩ : ThreadPool Nat)
      ∧ (ThreadPool.enqueue (⟨[Worker.waiting], [1], false, [1], []⟩ : ThreadPool Nat) 2).2.tasks
        = [1] ++ [2] :=
  ⟨(enqueue_contract (⟨[Worker.waiting], [1], true, [1], []⟩ : ThreadPool Nat) 2).2.1 rfl,
    ((enqueue_contract (⟨[Worker.waiting], [1], false, [1], []⟩ : ThreadPool Nat) 2).2.2 rfl).2.1⟩

/-- Claim C7, amended. For every worker count of at least 1 and every sequence
of steps from the freshly built pool: in a state where the stop flag is set
and every worker thread has returned, no worker is inside a task, the queue is
empty, and the finished tasks are exactly the submitted ones. -/
theorem teardown_drains {τ : Type} (threads : Nat) (hthreads : 0 < threads)
    (trace : List (Event τ)) (pool : ThreadPool τ)
    (hrun : (ThreadPool.new threads).run trace = some pool)
    (hstop : pool.stop = true) (hjoined : pool.joined = true) :
    pool.busy = false ∧ pool.tasks = [] ∧ pool.executed.Perm pool.submitted := by
  have hinv := ThreadPool.run_inv trace (ThreadPool.inv_new threads) hrun
  have hlen := ThreadPool.run_workers_length trace hrun
  have hall : ∀ w ∈ pool.workers, w = Worker.terminated := by
    intro w hw
    have := List.all_eq_true.mp hjoined w hw
    cases w <;> simp at this ⊢
  have hbusy : pool.busy = false := by
    unfold ThreadPool.busy
    rw [Bool.eq_false_iff]
    intro hany
    obtain ⟨w, hw, hr⟩ := List.any_eq_true.mp hany
    rw [hall w hw] at hr
    simp at hr
  have hne : pool.workers ≠ [] := by
    intro hnil
    rw [hnil] at hlen
    simp [ThreadPool.new] at hlen
    omega
  obtain ⟨w, hw⟩ := List.exists_mem_of_ne_nil _ hne
  have htasks := (hinv.1 ⟨w, hw, hall w hw⟩).2
  refine ⟨hbusy, htasks, ?_⟩
  have hperm := hinv.2
  rw [inFlight_of_not_busy pool hbusy, htasks] at hperm
  simpa using hperm.symm

/-- Claim C7, amended, on a pool of one worker: a task is submitted, the
destructor sets the stop flag, the worker still takes and runs the task and
only then returns. -/
theorem teardown_drains_witness :
    (0 < 1)
      ∧ (ThreadPool.new 1).run
          [Event.enqueue 7, Event.shutdown, Event.wake 0, Event.finish 0, Event.wake 0]
        = some (⟨[Worker.terminated], [], true, [7], [7]⟩ : ThreadPool Nat)
      ∧ (⟨[Worker.terminated], [], true, [7], [7]⟩ : ThreadPool Nat).busy = false
      ∧ (⟨[Worker.terminated], [], true, [7], [7]⟩ : ThreadPool Nat).tasks = []
      ∧ List.Perm (⟨[Worker.terminated], [], true, [7], [7]⟩ : ThreadPool Nat).executed
          (⟨[Worker.terminated], [], true, [7], [7]⟩ : ThreadPool Nat).submitted :=
  ⟨by decide, by decide,
    teardown_drains 1 (by decide)
      [Event.enqueue 7, Event.shutdown, Event.wake 0, Event.finish 0, Event.wake 0]
      ⟨[Worker.terminated], [], true, [7], [7]⟩ (by decide) rfl (by decide)⟩

/-- Claim C7 fails for a pool built with 0 workers: after one submission and
the destructor, the stop flag is set and every worker (there is none) has
returned, yet the task is still queued and was never executed. -/
theorem teardown_drains_counterexample :
    (ThreadPool.new 0).run [Event.enqueue 7, Event.shutdown]
        = some (⟨[], [7], true, [7], []⟩ : ThreadPool Nat)
      ∧ (⟨[], [7], true, [7], []⟩ : ThreadPool Nat).stop = true
      ∧ (⟨[], [7], true, [7], []⟩ : ThreadPool Nat).joined = true
      ∧ (⟨[], [7], true, [7], []⟩ : ThreadPool Nat).tasks ≠ []
      ∧ ¬ List.Perm (⟨[], [7], true, [7], []⟩ : ThreadPool Nat).executed
          (⟨[], [7], true, [7], []⟩ : ThreadPool Nat).submitted := by
  refine ⟨by decide, rfl, by decide, by decide, ?_⟩
  intro h
  have := h.length_eq
  simp at this

/-- Claim C10. Drain-to-completion: a waiting worker that passes its critical
section with a non-empty queue takes the head task, whatever the stop flag; a
step makes a worker return only when the stop flag is set and the queue is
empty; hence in every state reached from the freshly built pool, if some
worker has returned then the stop flag is set and the queue is empty. -/
theorem worker_drain_invariant {τ : Type} (threads : Nat) (trace : List (Event τ))
    (pool : ThreadPool τ) (hrun : (ThreadPool.new threads).run trace = some pool) :
    (∀ (p : ThreadPool τ) (k : Nat) (head : τ) (rest : List τ),
        p.workers[k]? = some Worker.waiting → p.tasks = head :: rest →
        p.step (Event.wake k) =
          some { p with tasks := rest, workers := p.workers.set k (Worker.running head) })
      ∧ (∀ (p p' : ThreadPool τ) (e : Event τ) (k : Nat),
        p.step e = some p' → p.workers[k]? ≠ some Worker.terminated →
        p'.workers[k]? = some Worker.terminated → p.stop = true ∧ p.tasks = [])
      ∧ ((∃ w ∈ pool.workers, w = Worker.terminated) → pool.stop = true ∧ pool.tasks = []) := by
  refine ⟨?_, ?_, (ThreadPool.run_inv trace (ThreadPool.inv_new threads) hrun).1⟩
  · intro p k head rest hw ht
    simp only [ThreadPool.step, hw, (ThreadPool.dequeue_task_iff p head rest).mpr ht]
  · intro p p' e k hstep hbefore hafter
    cases e with
    | enqueue task =>
      simp only [ThreadPool.step, ThreadPool.enqueue] at hstep
      cases hs : p.stop with
      | true => simp [hs] at hstep
      | false =>
        simp only [hs, Bool.false_eq_true, if_false, Option.some.injEq] at hstep
        subst hstep
        exact absurd hafter hbefore
    | wake j =>
      simp only [ThreadPool.step] at hstep
      cases hw : p.workers[j]? with
      | none => simp [hw] at hstep
      | some w =>
        cases w with
        | running t => simp [hw] at hstep
        | terminated => simp [hw] at hstep
        | waiting =>
          simp only [hw] at hstep
          cases hd : p.dequeue with
          | blocked => simp [hd] at hstep
          | exit => exact (ThreadPool.dequeue_exit_iff p).mp hd
          | task head rest =>
            simp only [hd, Option.some.injEq] at hstep
            subst hstep
            simp only [List.getElem?_set] at hafter
            split at hafter
            · split at hafter <;> simp at hafter
            · exact absurd hafter hbefore
    | finish j =>
      simp only [ThreadPool.step] at hstep
      cases hw : p.workers[j]? with
      | none => simp [hw] at hstep
      | some w =>
        cases w with
        | waiting => simp [hw] at hstep
        | terminated => simp [hw] at hstep
        | running t =>
          simp only [hw, Option.some.injEq] at hstep
          subst hstep
          simp only [List.getElem?_set] at hafter
          split at hafter
          · split at hafter <;> simp at hafter
          · exact absurd hafter hbefore
    | shutdown =>
      simp only [ThreadPool.step, ThreadPool.shutdown, Option.some.injEq] at hstep
      subst hstep
      exact absurd hafter hbefore

/-- Claim C10, on a pool of two workers: the stop flag is set while a task is
queued, a worker still takes the task, and a worker returns only after the
queue is empty. -/
theorem worker_drain_invariant_witness :
    (ThreadPool.new 2).run
        [Event.enqueue 7, Event.shutdown, Event.wake 1, Event.wake 0, Event.finish 1]
      = some (⟨[Worker.terminated, Worker.waiting], [], true, [7], [7]⟩ : ThreadPool Nat)
      ∧ ((∃ w ∈ (⟨[Worker.terminated, Worker.waiting], [], true, [7], [7]⟩ :
            ThreadPool Nat).workers, w = Worker.terminated) →
          (⟨[Worker.terminated, Worker.waiting], [], true, [7], [7]⟩ : ThreadPool Nat).stop = true
            ∧ (⟨[Worker.terminated, Worker.waiting], [], true, [7], [7]⟩ :
              ThreadPool Nat).tasks = []) :=
  ⟨by decide,
    (worker_drain_invariant 2
      [Event.enqueue 7, Event.shutdown, Event.wake 1, Event.wake 0, Event.finish 1]
      ⟨[Worker.terminated, Worker.waiting], [], true, [7], [7]⟩ (by decide)).2.2⟩

/-! ## The claims about `main` -/

/-- Claim C2 fails on `search-string -p /d -s needle` with one worker, where
the tasks run one after the other: each of the three files has matching lines
(four in all), but the log written out holds only the record of the task that
ran last, because every task assigns the shared string instead of appending
to it. -/
theorem main_log_overwritten :
    main fsDemo [] 1 argvDemo (sequentialTrace 3) =
        some { exitCode := 0, usage := none,
               scanned := some ("/d".toList, "needle".toList, 3, 3,
                 "long.txt:1 0123456789012345678901234567 ...\n".toList) }
      ∧ (readFile fsDemo "/d/a.txt".toList "needle".toList []).2
        = "a.txt:1 x needle\na.txt:3 needle y\n".toList
      ∧ (readFile fsDemo "/d/sub/b.txt".toList "needle".toList []).2
        = "b.txt:1 needle\n".toList
      ∧ (readFile fsDemo "/d/long.txt".toList "needle".toList []).2
        = "long.txt:1 0123456789012345678901234567 ...\n".toList := by
  refine ⟨by decide, by decide, by decide, by decide⟩

/-- Claim C9 fails on `search-string -p /d -s needle` with two workers: two
runs over the same tree that differ only in the order in which the tasks
finish report the same count and write different logs. -/
theorem main_log_depends_on_order :
    main fsDemo [] 2 argvDemo
        [Event.enqueue 0, Event.enqueue 1, Event.enqueue 2, Event.wake 0, Event.wake 1,
          Event.finish 0, Event.finish 1, Event.wake 0, Event.finish 0] =
        some { exitCode := 0, usage := none,
               scanned := some ("/d".toList, "needle".toList, 3, 3,
                 "long.txt:1 0123456789012345678901234567 ...\n".toList) }
      ∧ main fsDemo [] 2 argvDemo
        [Event.enqueue 0, Event.enqueue 1, Event.enqueue 2, Event.wake 0, Event.wake 1,
          Event.finish 1, Event.wake 1, Event.finish 1, Event.finish 0] =
        some { exitCode := 0, usage := none,
               scanned := some ("/d".toList, "needle".toList, 3, 3,
                 "a.txt:1 x needle\na.txt:3 needle y\n".toList) } := by
  refine ⟨by decide, by decide⟩

end SearchString
